import Mathlib

/-!
Verification of the `stable_marriage` implementation
(`include/boost/graph/stable_marriage.hpp`) against its natural-language
specification.

The graph is embedded as adjacency lists over natural-number vertices
(matching `boost::adjacency_list<listS, vecS, directedS>`: out-edges are
kept in insertion order, `edges(g)` walks vertices in index order, and an
edge is identified by its (source, target) pair).  Preference scores are
integers (the repository uses small integral `double` values).  The
per-edge `engaged_to` and `has_proposed` property maps and the per-vertex
`free` map are embedded as Boolean-valued functions updated pointwise.

`is_bipartite` is embedded as the Boost depth-first search it is: roots are
taken in vertex order and colored white, tree edges color the target with
the opposite color of the source, and a back edge (target still gray)
whose two endpoints carry the same color raises the failure that makes
`is_bipartite` return `false`, aborting the traversal.

`stable_marriage` then runs the deferred-acceptance loop exactly as the
C++ does: a single forward iterator over the vertices looks for the next
free black vertex, the proposal target is chosen by a left fold over the
out-edges starting from score 0 and updating whenever the injected
comparison accepts, and the reviewer's displacement decision uses the
built-in strict `>` on scores.
-/

namespace StableMarriage

/-- Pointwise update of a one-argument Boolean/value map (models a
property-map write `m[x] = a`). -/
def upd {α : Type} (f : ℕ → α) (x : ℕ) (a : α) : ℕ → α :=
  fun y => if y = x then a else f y

/-- Pointwise update of a two-argument map keyed by an edge (u, v). -/
def upd2 {α : Type} (f : ℕ → ℕ → α) (a b : ℕ) (c : α) : ℕ → ℕ → α :=
  fun u v => if u = a ∧ v = b then c else f u v

/-- Write the same value on both directions of a pair, first (a, b) then
(b, a), as the C++ writes `engaged_to_map` on the two edge directions. -/
def pairUpd {α : Type} (f : ℕ → ℕ → α) (a b : ℕ) (c : α) : ℕ → ℕ → α :=
  upd2 (upd2 f a b c) b a c

/-- The directed graph together with the read-only preference map:
`adj` lists each vertex's out-neighbors in edge-insertion order, and
`pref u v` is the preference score carried by the edge u→v. -/
structure SMGraph where
  adj : List (List ℕ)
  pref : ℕ → ℕ → ℤ

/-- Number of vertices (`num_vertices(g)`). -/
def SMGraph.n (d : SMGraph) : ℕ := d.adj.length

/-- Out-neighbor list of a vertex (`out_edges(u, g)` targets, in order). -/
def adjAt (d : SMGraph) (u : ℕ) : List ℕ := d.adj.getD u []

/-- Total number of directed edges. -/
def sumUnder (f : ℕ → ℕ) : ℕ → ℕ
  | 0 => 0
  | n + 1 => sumUnder f n + f n

/-- Total number of directed edges of the graph. -/
def edgeCount (d : SMGraph) : ℕ := sumUnder (fun u => (adjAt d u).length) d.n

/-! ### The bipartite pass (boost `is_bipartite`)

Depth-first search state: `dcol` is the DFS-internal color map
(0 = undiscovered/white, 1 = on stack/gray, 2 = finished/black), `part`
is the caller-visible partition map written through the bipartition
visitor (`false` = white, `true` = black), and `fail` records the
`bipartite_visitor_error` exception. -/
structure BipSt where
  dcol : ℕ → ℕ
  part : ℕ → Bool
  fail : Bool

/-- One DFS traversal from a root, driven by an explicit stack of
(vertex, remaining out-edges) frames.  A white target is a tree edge and
receives the opposite partition color; a gray target is a back edge and
is checked (same partition color on both endpoints throws,
aborting everything); a finished target is a forward/cross edge and is
ignored by the bipartition visitor. -/
def dfsGo (d : SMGraph) : ℕ → List (ℕ × List ℕ) → BipSt → BipSt
  | 0, _, st => st
  | _ + 1, [], st => st
  | fuel + 1, (u, []) :: rest, st =>
      dfsGo d fuel rest { st with dcol := upd st.dcol u 2 }
  | fuel + 1, (u, v :: vs) :: rest, st =>
      if st.fail then st
      else if st.dcol v = 0 then
        dfsGo d fuel ((v, adjAt d v) :: (u, vs) :: rest)
          { st with dcol := upd st.dcol v 1, part := upd st.part v (!st.part u) }
      else if st.dcol v = 1 then
        if st.part u = st.part v then { st with fail := true }
        else dfsGo d fuel ((u, vs) :: rest) st
      else dfsGo d fuel ((u, vs) :: rest) st

/-- The outer DFS loop over all vertices as potential roots, in index
order.  Each undiscovered root is colored white (the `on_start_vertex`
event) before its traversal. -/
def dfsRoots (d : SMGraph) : List ℕ → BipSt → BipSt
  | [], st => st
  | u :: us, st =>
      if st.fail then st
      else if st.dcol u = 0 then
        dfsRoots d us (dfsGo d (2 * edgeCount d + 2 * d.n + 2) [(u, adjAt d u)]
          { st with dcol := upd st.dcol u 1, part := upd st.part u false })
      else dfsRoots d us st

/-- Boost `is_bipartite(g, index_map, partition_map)`: returns the
verdict together with the partition map after the call (the caller's
map contents, overwritten by the traversal up to the point of failure). -/
def is_bipartite (d : SMGraph) (part0 : ℕ → Bool) : Bool × (ℕ → Bool) :=
  let st := dfsRoots d (List.range d.n) { dcol := fun _ => 0, part := part0, fail := false }
  (!st.fail, st.part)

/-! ### The matcher state and main loop -/

/-- Mutable state of one `stable_marriage` run: `pos` is the position of
the shared `men_iterator`, `free` the free-status vector, `prop` the
`has_proposed` edge map and `eng` the `engaged_to` edge map. -/
structure MState where
  pos : ℕ
  free : ℕ → Bool
  prop : ℕ → ℕ → Bool
  eng : ℕ → ℕ → Bool

/-- The inner `while` of the C++ loop: advance the iterator to the next
vertex that is black and free, if any. -/
def mscan (d : SMGraph) (colors : ℕ → Bool) (s : MState) : Option ℕ :=
  ((List.range d.n).drop s.pos).find? fun j => colors j && s.free j

/-- The proposal-selection fold over a free man's out-edges (source lines
165–191): starting from no candidate and score 0, a relation becomes the
candidate when its has-proposed flag is false, the reverse edge exists,
and the injected comparison accepts its score against the current best. -/
def findBest (d : SMGraph) (cmp : ℤ → ℤ → Bool) (prop : ℕ → ℕ → Bool) (m : ℕ) :
    List ℕ → Option ℕ × ℤ → Option ℕ × ℤ
  | [], acc => acc
  | w :: ws, acc =>
      if prop m w = false ∧ m ∈ adjAt d w ∧ cmp (d.pref m w) acc.2 = true then
        findBest d cmp prop m ws (some w, d.pref m w)
      else
        findBest d cmp prop m ws acc

/-- State after the man at `j` exhausts his candidates (line 259). -/
def exhaustState (s : MState) (j : ℕ) : MState :=
  { s with pos := j, free := upd s.free j false }

/-- State after the man at `j` proposes to the free woman `w0` and they
get engaged (lines 199–208): flag set, both edge directions engaged,
woman then man marked non-free. -/
def engageState (s : MState) (j w0 : ℕ) : MState :=
  { s with
      pos := j
      prop := upd2 s.prop j w0 true
      eng := pairUpd s.eng j w0 true
      free := upd (upd s.free w0 false) j false }

/-- State after the man at `j` proposes to the non-free woman `w0` and is
rejected (lines 199 and 228–232, test false): only the has-proposed flag
changes. -/
def rejectState (s : MState) (j w0 : ℕ) : MState :=
  { s with pos := j, prop := upd2 s.prop j w0 true }

/-- State after the man at `j` displaces `q0`, the current partner of the
non-free woman `w0` (lines 199 and 234–251): flag set, the new pair
engaged on both directions, the old pair cleared on both directions,
woman and new man marked non-free, the displaced man freed. -/
def displaceState (s : MState) (j w0 q0 : ℕ) : MState :=
  { s with
      pos := j
      prop := upd2 s.prop j w0 true
      eng := pairUpd (pairUpd s.eng j w0 true) w0 q0 false
      free := upd (upd (upd s.free w0 false) j false) q0 true }

/-- One iteration of the outer `while (!every_man_is_engaged)` loop:
`none` means the iterator reached the end and the loop exits.  Otherwise
the found free black man either exhausts (no eligible unproposed
relation), engages a free woman, or has the woman decide between him and
her current partner by the built-in `>` on the two reviewer-side scores. -/
def mstep (d : SMGraph) (cmp : ℤ → ℤ → Bool) (colors : ℕ → Bool) (s : MState) :
    Option MState :=
  match mscan d colors s with
  | none => none
  | some j =>
      match (findBest d cmp s.prop j (adjAt d j) (none, 0)).1 with
      | none => some (exhaustState s j)
      | some w0 =>
          if s.free w0 then some (engageState s j w0)
          else
            match (adjAt d w0).find? (fun v => s.eng w0 v) with
            | none => some (rejectState s j w0)
            | some q0 =>
                if d.pref w0 q0 < d.pref w0 j then some (displaceState s j w0 q0)
                else some (rejectState s j w0)

/-- The initial matcher state: every relation's engaged and has-proposed
flags cleared, every vertex free, iterator at the first vertex. -/
def initM (_d : SMGraph) : MState :=
  { pos := 0, free := fun _ => true, prop := fun _ _ => false, eng := fun _ _ => false }

/-- The main loop with explicit fuel; `none` means the fuel ran out
before the loop exited (shown never to happen at `mfuel`). -/
def loopFuel (d : SMGraph) (cmp : ℤ → ℤ → Bool) (colors : ℕ → Bool) :
    ℕ → MState → Option MState
  | 0, _ => none
  | f + 1, s =>
      match mstep d cmp colors s with
      | none => some s
      | some s' => loopFuel d cmp colors f s'

/-- Fuel that always suffices: the loop measure 2·(unproposed flags) +
(free vertices) starts at 2·edgeCount + n and strictly decreases. -/
def mfuel (d : SMGraph) : ℕ := 2 * edgeCount d + d.n + 1

/-- The states visited by the run: `reach k` is the state after `k`
iterations (staying at the exit state once the loop has exited). -/
def reach (d : SMGraph) (cmp : ℤ → ℤ → Bool) (colors : ℕ → Bool) :
    ℕ → MState → MState
  | 0, s => s
  | k + 1, s =>
      match mstep d cmp colors s with
      | none => s
      | some s' => reach d cmp colors k s'

/-- All caller-visible data of one problem instance: the graph structure,
the preference map, the color (partition/label) map storage and the
engaged-to map storage. -/
structure FullData where
  adj : List (List ℕ)
  pref : ℕ → ℕ → ℤ
  colors : ℕ → Bool
  eng : ℕ → ℕ → Bool

/-- The graph part of the caller data. -/
def FullData.graph (D : FullData) : SMGraph := ⟨D.adj, D.pref⟩

/-- The partition map as it stands after the internal `is_bipartite`
call of `stable_marriage`. -/
def bipColors (D : FullData) : ℕ → Bool := (is_bipartite D.graph D.colors).2

/-- The final matcher state of a `stable_marriage` call. -/
def smRun (D : FullData) (cmp : ℤ → ℤ → Bool) : MState :=
  let d := D.graph
  (loopFuel d cmp (bipColors D) (mfuel d) (initM d)).getD (initM d)

/-- The embedded `stable_marriage(g, engaged_to_map, preference_map,
compare, vertex_index_map, color_map)`: runs `is_bipartite` (discarding
its verdict, as the C++ does), clears and then fills the engaged-to map
along the deferred-acceptance loop, and returns all caller-visible data
after the call.  Only edge keys of the engaged-to storage are written. -/
def stable_marriage (D : FullData) (cmp : ℤ → ℤ → Bool) : FullData :=
  { adj := D.adj, pref := D.pref, colors := bipColors D,
    eng := fun u v => if v ∈ adjAt D.graph u then (smRun D cmp).eng u v else D.eng u v }

/-- The helper `is_engaged(v, g, engaged_to_map)` (source lines 267–277):
scan v's out-edges for an engaged one; return its target with `true`, or
a default-constructed vertex with `true` when there is none. -/
def is_engaged (v : ℕ) (d : SMGraph) (eng : ℕ → ℕ → Bool) : ℕ × Bool :=
  match (adjAt d v).find? (fun w => eng v w) with
  | some w => (w, true)
  | none => (0, true)

/-- The comparator used by the repository's test and example:
`std::greater_equal<double>()`. -/
def geCmp : ℤ → ℤ → Bool := fun a b => decide (b ≤ a)

/-! ### Termination measure -/

/-- Number of list elements on which the Boolean map is false. -/
def cntFalse (p : ℕ → Bool) : List ℕ → ℕ
  | [] => 0
  | v :: vs => (if p v then 0 else 1) + cntFalse p vs

/-- Number of edges whose has-proposed flag is still false. -/
def unprop (d : SMGraph) (s : MState) : ℕ :=
  sumUnder (fun u => cntFalse (s.prop u) (adjAt d u)) d.n

/-- Number of free vertices. -/
def freeCnt (d : SMGraph) (s : MState) : ℕ :=
  sumUnder (fun u => if s.free u then 1 else 0) d.n

/-- The loop measure: strictly decreases on every non-exit iteration. -/
def mu (d : SMGraph) (s : MState) : ℕ := 2 * unprop d s + freeCnt d s

/-! ### Wellformedness -/

/-- A proper 2-coloring: every edge stays inside the vertex range and
joins the two color classes.  This is what a successful bipartite
partition guarantees about the color map. -/
def Proper (d : SMGraph) (colors : ℕ → Bool) : Prop :=
  ∀ u v, v ∈ adjAt d u → u < d.n ∧ v < d.n ∧ colors u ≠ colors v

/-! ### Spec-side selection (for claim C6)

Modelled from the spec: among the proposer's outgoing relations whose
has-proposed flag is false and whose reverse relation exists, choose the
one maximizing the preference score, ties broken by
first-encountered-in-iteration-order. -/
def specFirstPreferred (d : SMGraph) (prop : ℕ → ℕ → Bool) (m : ℕ) (l : List ℕ) :
    Option ℕ :=
  l.foldl (fun acc v =>
    if prop m v = false ∧ m ∈ adjAt d v then
      match acc with
      | none => some v
      | some b => if d.pref m b < d.pref m v then some v else acc
    else acc) none

/-! ### Concrete instances -/

/-- The repository test's 3×3 instance (`three_men_three_women`):
vertices 0–2 built as "men", 3–5 as "women", edges inserted man-major,
preference rows `{1,4,3},{2,5,2},{4,3,6}` and `{2,2,3},{4,3,5},{2,3,2}`. -/
def D2 : FullData where
  adj := [[3,4,5],[3,4,5],[3,4,5],[0,1,2],[0,1,2],[0,1,2]]
  pref := fun u v =>
    match u, v with
    | 0,3 => 1 | 0,4 => 4 | 0,5 => 3
    | 1,3 => 2 | 1,4 => 5 | 1,5 => 2
    | 2,3 => 4 | 2,4 => 3 | 2,5 => 6
    | 3,0 => 2 | 3,1 => 2 | 3,2 => 3
    | 4,0 => 4 | 4,1 => 3 | 4,2 => 5
    | 5,0 => 2 | 5,1 => 3 | 5,2 => 2
    | _,_ => 0
  colors := fun _ => false
  eng := fun _ _ => false

/-- The pairs the repository test expects to end mutually engaged. -/
def expectedPairs : List (ℕ × ℕ) := [(0,4),(4,0),(1,5),(5,1),(2,3),(3,2)]

/-- A bidirected triangle: an odd cycle, hence not 2-colorable. -/
def D3 : FullData where
  adj := [[1,2],[0,2],[0,1]]
  pref := fun u v => match u, v with | 1,0 => 5 | 1,2 => 1 | _,_ => 1
  colors := fun _ => false
  eng := fun _ _ => false

/-- A complete bipartite 2×2 instance on which the second proposer
displaces the first, who is then never revisited by the forward-only
iterator. -/
def D4 : FullData where
  adj := [[2,3],[2,3],[0,1],[0,1]]
  pref := fun u v =>
    match u, v with
    | 2,0 => 9 | 2,1 => 1 | 3,0 => 9 | 3,1 => 1
    | 0,2 => 1 | 0,3 => 5 | 1,2 => 1 | 1,3 => 1
    | _,_ => 0
  colors := fun _ => false
  eng := fun _ _ => false

/-- Two proposers (1 and 2) tied at reviewer 0's scores, used to show the
reviewer's decision uses the built-in `>` rather than the injected
greater-or-equal comparator. -/
def D7 : FullData where
  adj := [[1,2],[0],[0]]
  pref := fun u v =>
    match u, v with
    | 1,0 => 5 | 2,0 => 5 | 0,1 => 7 | 0,2 => 7
    | _,_ => 0
  colors := fun _ => false
  eng := fun _ _ => false

/-- The state of the `D7` run after its first iteration: proposer 1 is
engaged to reviewer 0. -/
def s7 : MState := engageState (initM D7.graph) 1 0

/-- A 2-vertex instance whose caller-supplied color map marks everything
black; the internal bipartite pass overwrites it. -/
def D9 : FullData where
  adj := [[1],[0]]
  pref := fun _ _ => 0
  colors := fun _ => true
  eng := fun _ _ => false

/-- Selection instance with a score tie between the two reviewers. -/
def d6a : SMGraph :=
  ⟨[[1,2],[0],[0]], fun u v => match u, v with | 0,1 => 5 | 0,2 => 5 | _,_ => 0⟩

/-- Selection instance whose only eligible relation has a negative score. -/
def d6b : SMGraph :=
  ⟨[[1],[0]], fun u v => match u, v with | 0,1 => -3 | _,_ => 0⟩

/-- One-vertex graph used to witness a loop iteration (an exhaustion). -/
def d5w : SMGraph := ⟨[[]], fun _ _ => 0⟩

/-- Pointwise symmetry of the engaged map. -/
def Esym (s : MState) : Prop := ∀ u v, s.eng u v = s.eng v u

/-- The run invariant of the matcher (for a properly 2-colored graph,
`colors m = true` meaning m is a black proposer):

* `symm`: an engaged flag is only ever set on a pair whose two edge
  directions both exist, and symmetrically;
* `notFree`: engaged agents are not free;
* `uniq`: each agent has at most one engaged partner;
* `engProp`: an engaged proposer has proposed on that relation;
* `busy`: a proposal that was made and is not (or no longer) the standing
  engagement was beaten: the reviewer holds a partner it scores at least
  as high as the rejected/displaced proposer;
* `opt`: an engaged proposer scores its partner at least as high as any
  eligible reviewer it has not proposed to;
* `whiteBusy`: a non-free reviewer has an engaged out-edge. -/
structure Inv (d : SMGraph) (colors : ℕ → Bool) (s : MState) : Prop where
  symm : ∀ u v, s.eng u v = true → v ∈ adjAt d u ∧ u ∈ adjAt d v ∧ s.eng v u = true
  notFree : ∀ u v, s.eng u v = true → s.free u = false ∧ s.free v = false
  uniq : ∀ u v w, s.eng u v = true → s.eng u w = true → v = w
  engProp : ∀ m w, colors m = true → s.eng m w = true → s.prop m w = true
  busy : ∀ m w, colors m = true → w ∈ adjAt d m → m ∈ adjAt d w →
      s.prop m w = true → s.eng m w = false →
      ∃ q, s.eng w q = true ∧ d.pref w m ≤ d.pref w q
  opt : ∀ m r, colors m = true → s.eng m r = true →
      ∀ w, w ∈ adjAt d m → m ∈ adjAt d w → s.prop m w = false →
      d.pref m w ≤ d.pref m r
  whiteBusy : ∀ w, colors w = false → s.free w = false →
      ∃ v, v ∈ adjAt d w ∧ s.eng w v = true

/-! ## Basic lemmas -/

theorem geCmp_eq_true {a b : ℤ} : geCmp a b = true ↔ b ≤ a := by
  simp [geCmp]

theorem upd_eval {α : Type} (f : ℕ → α) (x y : ℕ) (a : α) :
    upd f x a y = if y = x then a else f y := rfl

theorem upd2_eval {α : Type} (f : ℕ → ℕ → α) (a b u v : ℕ) (c : α) :
    upd2 f a b c u v = if u = a ∧ v = b then c else f u v := rfl

theorem adjAt_nil (d : SMGraph) {u : ℕ} (h : d.n ≤ u) : adjAt d u = [] := by
  unfold adjAt
  exact List.getD_eq_default _ _ h

theorem mscan_some {d : SMGraph} {colors : ℕ → Bool} {s : MState} {j : ℕ}
    (h : mscan d colors s = some j) :
    j < d.n ∧ colors j = true ∧ s.free j = true := by
  unfold mscan at h
  have hm : j ∈ (List.range d.n).drop s.pos := List.mem_of_find?_eq_some h
  have hp := List.find?_some h
  simp only [Bool.and_eq_true] at hp
  exact ⟨List.mem_range.1 (List.drop_subset _ _ hm), hp.1, hp.2⟩

/-- Wellformedness from a decidable bounded check. -/
theorem Proper_of_check (d : SMGraph) (colors : ℕ → Bool)
    (h : ((List.range d.n).all fun u => (adjAt d u).all fun v =>
        decide (v < d.n) && (colors u != colors v)) = true) :
    Proper d colors := by
  intro u v hv
  by_cases hu : u < d.n
  · have h1 := (List.all_eq_true.1 h) u (List.mem_range.2 hu)
    have h2 := (List.all_eq_true.1 h1) v hv
    simp only [Bool.and_eq_true, decide_eq_true_eq, bne_iff_ne] at h2
    exact ⟨hu, h2.1, h2.2⟩
  · rw [adjAt_nil d (Nat.le_of_not_lt hu)] at hv
    cases hv

/-! ## Lemmas about the selection fold -/

theorem findBest_cases (d : SMGraph) (cmp : ℤ → ℤ → Bool) (prop : ℕ → ℕ → Bool)
    (m : ℕ) : ∀ (l : List ℕ) (acc : Option ℕ × ℤ),
    findBest d cmp prop m l acc = acc ∨
    ∃ w, (findBest d cmp prop m l acc).1 = some w ∧ w ∈ l ∧ prop m w = false ∧
      m ∈ adjAt d w ∧ (findBest d cmp prop m l acc).2 = d.pref m w := by
  intro l
  induction l with
  | nil => intro acc; exact Or.inl rfl
  | cons w ws ih =>
      intro acc
      by_cases hc : prop m w = false ∧ m ∈ adjAt d w ∧ cmp (d.pref m w) acc.2 = true
      · rw [show findBest d cmp prop m (w :: ws) acc
              = findBest d cmp prop m ws (some w, d.pref m w) by
            simp [findBest, hc]]
        rcases ih (some w, d.pref m w) with heq | ⟨w', h1, h2, h3, h4, h5⟩
        · exact Or.inr ⟨w, by rw [heq], List.mem_cons_self w ws, hc.1, hc.2.1, by rw [heq]⟩
        · exact Or.inr ⟨w', h1, List.mem_cons_of_mem w h2, h3, h4, h5⟩
      · rw [show findBest d cmp prop m (w :: ws) acc = findBest d cmp prop m ws acc by
            simp [findBest, hc]]
        rcases ih acc with heq | ⟨w', h1, h2, h3, h4, h5⟩
        · exact Or.inl heq
        · exact Or.inr ⟨w', h1, List.mem_cons_of_mem w h2, h3, h4, h5⟩

theorem findBest_le (d : SMGraph) (cmp : ℤ → ℤ → Bool) (prop : ℕ → ℕ → Bool)
    (m : ℕ) (hle : ∀ a b : ℤ, cmp a b = true → b ≤ a) :
    ∀ (l : List ℕ) (acc : Option ℕ × ℤ), acc.2 ≤ (findBest d cmp prop m l acc).2 := by
  intro l
  induction l with
  | nil => intro acc; exact le_rfl
  | cons w ws ih =>
      intro acc
      by_cases hc : prop m w = false ∧ m ∈ adjAt d w ∧ cmp (d.pref m w) acc.2 = true
      · rw [show findBest d cmp prop m (w :: ws) acc
              = findBest d cmp prop m ws (some w, d.pref m w) by
            simp [findBest, hc]]
        exact le_trans (hle _ _ hc.2.2) (ih (some w, d.pref m w))
      · rw [show findBest d cmp prop m (w :: ws) acc = findBest d cmp prop m ws acc by
            simp [findBest, hc]]
        exact ih acc

theorem findBest_max (d : SMGraph) (cmp : ℤ → ℤ → Bool) (prop : ℕ → ℕ → Bool)
    (m : ℕ) (hle : ∀ a b : ℤ, cmp a b = true → b ≤ a)
    (hgt : ∀ a b : ℤ, b < a → cmp a b = true) :
    ∀ (l : List ℕ) (acc : Option ℕ × ℤ), ∀ v ∈ l, prop m v = false →
      m ∈ adjAt d v → d.pref m v ≤ (findBest d cmp prop m l acc).2 := by
  intro l
  induction l with
  | nil => intro acc v hv; cases hv
  | cons w ws ih =>
      intro acc v hv hpv hmv
      by_cases hc : prop m w = false ∧ m ∈ adjAt d w ∧ cmp (d.pref m w) acc.2 = true
      · rw [show findBest d cmp prop m (w :: ws) acc
              = findBest d cmp prop m ws (some w, d.pref m w) by
            simp [findBest, hc]]
        rcases List.mem_cons.1 hv with rfl | hv'
        · exact findBest_le d cmp prop m hle ws (some v, d.pref m v)
        · exact ih (some w, d.pref m w) v hv' hpv hmv
      · rw [show findBest d cmp prop m (w :: ws) acc = findBest d cmp prop m ws acc by
            simp [findBest, hc]]
        rcases List.mem_cons.1 hv with rfl | hv'
        · have hnc : cmp (d.pref m v) acc.2 ≠ true := by
            intro hcc; exact hc ⟨hpv, hmv, hcc⟩
          have : ¬ acc.2 < d.pref m v := fun hlt => hnc (hgt _ _ hlt)
          exact le_trans (le_of_not_lt this) (findBest_le d cmp prop m hle ws acc)
        · exact ih acc v hv' hpv hmv

/-! ## Case analysis of one loop iteration -/

theorem mstep_cases {d : SMGraph} {cmp : ℤ → ℤ → Bool} {colors : ℕ → Bool}
    {s s' : MState} (h : mstep d cmp colors s = some s') :
    ∃ j, mscan d colors s = some j ∧
      (((findBest d cmp s.prop j (adjAt d j) (none, 0)).1 = none ∧ s' = exhaustState s j)
      ∨ ∃ w0, (findBest d cmp s.prop j (adjAt d j) (none, 0)).1 = some w0 ∧
          ((s.free w0 = true ∧ s' = engageState s j w0)
          ∨ (s.free w0 = false ∧
             (((adjAt d w0).find? (fun v => s.eng w0 v) = none ∧ s' = rejectState s j w0)
             ∨ ∃ q0, (adjAt d w0).find? (fun v => s.eng w0 v) = some q0 ∧
                 ((d.pref w0 q0 < d.pref w0 j ∧ s' = displaceState s j w0 q0)
                 ∨ (¬ d.pref w0 q0 < d.pref w0 j ∧ s' = rejectState s j w0)))))) := by
  unfold mstep at h
  split at h
  next => cases h
  next j hscan =>
    refine ⟨j, hscan, ?_⟩
    split at h
    next hfb => exact Or.inl ⟨hfb, (Option.some_injective _ h).symm⟩
    next w0 hfb =>
      refine Or.inr ⟨w0, hfb, ?_⟩
      split at h
      next hfree => exact Or.inl ⟨hfree, (Option.some_injective _ h).symm⟩
      next hfree =>
        refine Or.inr ⟨Bool.eq_false_iff.2 hfree, ?_⟩
        split at h
        next hfp => exact Or.inl ⟨hfp, (Option.some_injective _ h).symm⟩
        next q0 hfp =>
          refine Or.inr ⟨q0, hfp, ?_⟩
          split at h
          next hlt => exact Or.inl ⟨hlt, (Option.some_injective _ h).symm⟩
          next hlt => exact Or.inr ⟨hlt, (Option.some_injective _ h).symm⟩

/-! ## Pointwise evaluation of the step states -/

theorem pairUpd_eval {α : Type} (f : ℕ → ℕ → α) (a b : ℕ) (c : α) (u v : ℕ) :
    pairUpd f a b c u v = if (u = b ∧ v = a) ∨ (u = a ∧ v = b) then c else f u v := by
  rw [pairUpd, upd2_eval, upd2_eval]
  by_cases h1 : u = b ∧ v = a
  · rw [if_pos h1, if_pos (Or.inl h1)]
  · rw [if_neg h1]
    by_cases h2 : u = a ∧ v = b
    · rw [if_pos h2, if_pos (Or.inr h2)]
    · rw [if_neg h2, if_neg (by tauto)]

theorem exhaust_free_eval (s : MState) (j u : ℕ) :
    (exhaustState s j).free u = if u = j then false else s.free u := rfl

theorem engage_eng_eval (s : MState) (j w0 u v : ℕ) :
    (engageState s j w0).eng u v
      = if (u = w0 ∧ v = j) ∨ (u = j ∧ v = w0) then true else s.eng u v :=
  pairUpd_eval s.eng j w0 true u v

theorem engage_free_eval (s : MState) (j w0 u : ℕ) :
    (engageState s j w0).free u
      = if u = j then false else if u = w0 then false else s.free u := rfl

theorem engage_prop_eval (s : MState) (j w0 u v : ℕ) :
    (engageState s j w0).prop u v
      = if u = j ∧ v = w0 then true else s.prop u v := rfl

theorem reject_prop_eval (s : MState) (j w0 u v : ℕ) :
    (rejectState s j w0).prop u v
      = if u = j ∧ v = w0 then true else s.prop u v := rfl

theorem displace_eng_eval (s : MState) (j w0 q0 u v : ℕ) :
    (displaceState s j w0 q0).eng u v
      = if (u = q0 ∧ v = w0) ∨ (u = w0 ∧ v = q0) then false
        else if (u = w0 ∧ v = j) ∨ (u = j ∧ v = w0) then true
        else s.eng u v := by
  show pairUpd (pairUpd s.eng j w0 true) w0 q0 false u v = _
  rw [pairUpd_eval, pairUpd_eval]

theorem displace_free_eval (s : MState) (j w0 q0 u : ℕ) :
    (displaceState s j w0 q0).free u
      = if u = q0 then true else if u = j then false
        else if u = w0 then false else s.free u := rfl

theorem displace_prop_eval (s : MState) (j w0 q0 u v : ℕ) :
    (displaceState s j w0 q0).prop u v
      = if u = j ∧ v = w0 then true else s.prop u v := rfl

/-! ## Claim C2 -/

/-- C2: on the repository test's 3×3 instance with the greater-or-equal
comparator, `stable_marriage` ends with exactly the pairs (P0,R1),
(P1,R2), (P2,R0) — vertices (0,4), (1,5), (2,3) — engaged in both
directions, and every other relation's engaged flag false. -/
theorem C2_concrete_run :
    ((List.range 6).all fun u => (adjAt D2.graph u).all fun v =>
      (stable_marriage D2 geCmp).eng u v == expectedPairs.contains (u, v)) = true := by
  decide

/-! ## Claim C3 -/

/-- C3 fails on the code: on the bidirected triangle `D3` (an odd cycle),
the embedded `is_bipartite` does report failure, but `stable_marriage`
discards the verdict (source line 101 ignores the return value) and the
matching main loop still runs: proposer 1 proposes (its has-proposed
flag is set) and ends engaged to vertex 0 in both directions. -/
theorem C3_matching_runs_on_odd_cycle :
    (is_bipartite D3.graph D3.colors).1 = false ∧
    (stable_marriage D3 geCmp).eng 1 0 = true ∧
    (stable_marriage D3 geCmp).eng 0 1 = true ∧
    (smRun D3 geCmp).prop 1 0 = true := by
  decide

/-! ## Claim C4 -/

/-- C4 fails on the code: `D4` is a complete bipartite instance (each of
the two black proposers 2 and 3 is connected both ways with each of the
two white reviewers 0 and 1, and the instance passes the bipartite
check), yet after `stable_marriage` proposer 2 — displaced by proposer 3
before the forward-only `men_iterator` could ever return to it — is free
again and engaged to nobody, and reviewer 1 is engaged to nobody. -/
theorem C4_not_everyone_engaged :
    (is_bipartite D4.graph D4.colors).1 = true ∧
    bipColors D4 2 = true ∧ bipColors D4 3 = true ∧
    bipColors D4 0 = false ∧ bipColors D4 1 = false ∧
    adjAt D4.graph 2 = [0, 1] ∧ adjAt D4.graph 3 = [0, 1] ∧
    adjAt D4.graph 0 = [2, 3] ∧ adjAt D4.graph 1 = [2, 3] ∧
    (smRun D4 geCmp).free 2 = true ∧
    (stable_marriage D4 geCmp).eng 2 0 = false ∧
    (stable_marriage D4 geCmp).eng 2 1 = false ∧
    (stable_marriage D4 geCmp).eng 0 2 = false ∧
    (stable_marriage D4 geCmp).eng 1 2 = false ∧
    (stable_marriage D4 geCmp).eng 1 3 = false ∧
    (stable_marriage D4 geCmp).eng 3 1 = false := by
  decide

/-! ## Claim C7 -/

/-- C7 as stated is false: the claim says the reviewer's decision applies
the injected comparison policy to the candidate's and the partner's
reviewer-side scores.  On `D7` with the greater-or-equal policy the
candidate 2 ties the partner 1 at reviewer 0 (score 7 each), so the
policy accepts the candidate — yet the code (source line 228 uses the
built-in `>`) keeps the old engagement and records nothing for 2. -/
theorem C7_policy_not_consulted :
    geCmp (D7.pref 0 2) (D7.pref 0 1) = true ∧
    (stable_marriage D7 geCmp).eng 0 2 = false ∧
    (stable_marriage D7 geCmp).eng 2 0 = false ∧
    (stable_marriage D7 geCmp).eng 0 1 = true ∧
    (stable_marriage D7 geCmp).eng 1 0 = true := by
  decide

/-- C7 amended: when a proposal by the man at `j` reaches the non-free
reviewer `w0` whose current partner is `q0`, the decision compares the
two reviewer-side scores with the built-in strict `>` (not the injected
policy): the engagement is transferred exactly when the candidate's
score is strictly greater, and otherwise the only state change is the
has-proposed flag (`rejectState`). -/
theorem C7_decision_by_builtin_gt (d : SMGraph) (cmp : ℤ → ℤ → Bool)
    (colors : ℕ → Bool) (s : MState) (j w0 q0 : ℕ)
    (h1 : mscan d colors s = some j)
    (h2 : (findBest d cmp s.prop j (adjAt d j) (none, 0)).1 = some w0)
    (h3 : s.free w0 = false)
    (h4 : (adjAt d w0).find? (fun v => s.eng w0 v) = some q0) :
    mstep d cmp colors s =
      some (if d.pref w0 q0 < d.pref w0 j then displaceState s j w0 q0
            else rejectState s j w0) := by
  unfold mstep
  rw [h1]
  simp only [h2, h3, h4, Bool.false_eq_true, if_false]
  split
  next => rfl
  next => rfl

/-- Witness for `C7_decision_by_builtin_gt` at the second iteration of
the `D7` run: the tie (7 vs 7) is not a strict improvement, so the step
is exactly a rejection. -/
theorem C7_decision_witness :
    mstep D7.graph geCmp (bipColors D7) s7 = some (rejectState s7 2 0) := by
  have h := C7_decision_by_builtin_gt D7.graph geCmp (bipColors D7) s7 2 0 1
    (by decide) (by decide) (by decide) (by decide)
  rw [h, if_neg (by decide : ¬ D7.graph.pref 0 1 < D7.graph.pref 0 2)]

/-! ## Claim C9 -/

/-- C9 fails on the code: the color (group-label) map is an output, not a
read-only input.  On `D9` the caller supplies all-black labels and the
internal bipartite pass overwrites vertex 0's label with white. -/
theorem C9_labels_overwritten :
    (stable_marriage D9 geCmp).colors 0 = false ∧ D9.colors 0 = true := by
  decide

/-- C9 amended: after a `stable_marriage` call the graph structure and
the preference scores are unchanged, and the color map holds exactly the
partition computed by the internal `is_bipartite` pass (so the engaged
map and the color map are the only caller-visible data written). -/
theorem C9_frame (D : FullData) (cmp : ℤ → ℤ → Bool) :
    (stable_marriage D cmp).adj = D.adj ∧
    (stable_marriage D cmp).pref = D.pref ∧
    (stable_marriage D cmp).colors = (is_bipartite D.graph D.colors).2 :=
  ⟨rfl, rfl, rfl⟩

/-! ## Claim C10 -/

/-- C10: `is_engaged` pairs every result with `true`; in particular when
`v` has no engaged out-going relation it returns the default-constructed
vertex 0 paired with `true`, so the Boolean never distinguishes an
engaged agent from a free one. -/
theorem C10_is_engaged_always_true (v : ℕ) (d : SMGraph) (eng : ℕ → ℕ → Bool) :
    (is_engaged v d eng).2 = true ∧
    (((adjAt d v).all fun w => !eng v w) = true → is_engaged v d eng = (0, true)) := by
  constructor
  · unfold is_engaged
    split <;> rfl
  · intro hall
    unfold is_engaged
    have : (adjAt d v).find? (fun w => eng v w) = none := by
      rw [List.find?_eq_none]
      intro x hx
      have := (List.all_eq_true.1 hall) x hx
      simp only [Bool.not_eq_eq_eq_not, Bool.not_true] at this
      simp [this]
    rw [this]

/-- Witness for `C10_is_engaged_always_true` on the triangle graph with
the empty engagement map. -/
theorem C10_witness :
    (is_engaged 0 D3.graph (fun _ _ => false)).2 = true ∧
    is_engaged 0 D3.graph (fun _ _ => false) = (0, true) :=
  ⟨(C10_is_engaged_always_true 0 D3.graph (fun _ _ => false)).1,
   (C10_is_engaged_always_true 0 D3.graph (fun _ _ => false)).2 (by decide)⟩

/-! ## Claim C6 -/

/-- Characterization of the selection fold under the greater-or-equal
comparator, for an arbitrary starting accumulator: either nothing is
ever accepted (every eligible relation scores strictly below the
starting score), or the result is the last eligible maximizer at or
above the starting score. -/
theorem findBest_ge_char (d : SMGraph) (prop : ℕ → ℕ → Bool) (m : ℕ) :
    ∀ (l : List ℕ) (acc : Option ℕ × ℤ),
    (findBest d geCmp prop m l acc = acc ∧
       ∀ v ∈ l, prop m v = false → m ∈ adjAt d v → d.pref m v < acc.2)
    ∨ ∃ w l1 l2, (findBest d geCmp prop m l acc).1 = some w ∧
        (findBest d geCmp prop m l acc).2 = d.pref m w ∧
        l = l1 ++ w :: l2 ∧ prop m w = false ∧ m ∈ adjAt d w ∧
        acc.2 ≤ d.pref m w ∧
        (∀ v ∈ l, prop m v = false → m ∈ adjAt d v → d.pref m v ≤ d.pref m w) ∧
        (∀ v ∈ l2, prop m v = false → m ∈ adjAt d v → d.pref m v < d.pref m w) := by
  intro l
  induction l with
  | nil =>
      intro acc
      exact Or.inl ⟨rfl, by intro v hv; cases hv⟩
  | cons w ws ih =>
      intro acc
      by_cases hc : prop m w = false ∧ m ∈ adjAt d w ∧ geCmp (d.pref m w) acc.2 = true
      · have hstep : findBest d geCmp prop m (w :: ws) acc
            = findBest d geCmp prop m ws (some w, d.pref m w) := by
          simp [findBest, hc]
        have hacc : acc.2 ≤ d.pref m w := geCmp_eq_true.1 hc.2.2
        rcases ih (some w, d.pref m w) with ⟨heq, hbound⟩ | ⟨w', l1, l2, h1, h2, h3, h4, h5, h6, h7, h8⟩
        · refine Or.inr ⟨w, [], ws, ?_, ?_, rfl, hc.1, hc.2.1, hacc, ?_, ?_⟩
          · rw [hstep, heq]
          · rw [hstep, heq]
          · intro v hv hpv hmv
            rcases List.mem_cons.1 hv with rfl | hv'
            · exact le_rfl
            · exact le_of_lt (hbound v hv' hpv hmv)
          · intro v hv hpv hmv
            exact hbound v hv hpv hmv
        · refine Or.inr ⟨w', w :: l1, l2, ?_, ?_, by simp [h3], h4, h5,
            le_trans hacc h6, ?_, h8⟩
          · rw [hstep]; exact h1
          · rw [hstep]; exact h2
          · intro v hv hpv hmv
            rcases List.mem_cons.1 hv with rfl | hv'
            · exact h6
            · exact h7 v hv' hpv hmv
      · have hstep : findBest d geCmp prop m (w :: ws) acc
            = findBest d geCmp prop m ws acc := by
          simp [findBest, hc]
        rcases ih acc with ⟨heq, hbound⟩ | ⟨w', l1, l2, h1, h2, h3, h4, h5, h6, h7, h8⟩
        · refine Or.inl ⟨by rw [hstep, heq], ?_⟩
          intro v hv hpv hmv
          rcases List.mem_cons.1 hv with rfl | hv'
          · by_contra hnot
            exact hc ⟨hpv, hmv, geCmp_eq_true.2 (le_of_not_lt hnot)⟩
          · exact hbound v hv' hpv hmv
        · refine Or.inr ⟨w', w :: l1, l2, by rw [hstep]; exact h1,
            by rw [hstep]; exact h2, by simp [h3], h4, h5, h6, ?_, h8⟩
          intro v hv hpv hmv
          rcases List.mem_cons.1 hv with rfl | hv'
          · have hnc : geCmp (d.pref m v) acc.2 ≠ true := fun hcc => hc ⟨hpv, hmv, hcc⟩
            have hlt : d.pref m v < acc.2 := by
              by_contra hnot
              exact hnc (geCmp_eq_true.2 (le_of_not_lt hnot))
            exact le_of_lt (lt_of_lt_of_le hlt h6)
          · exact h7 v hv' hpv hmv

/-- C6 as stated is false on the code in two ways, exhibited on concrete
selection states with the greater-or-equal comparator: on `d6a`
(reviewers 1 and 2 tied at score 5) the code selects the last-encountered
maximizer 2 while the spec's first-encountered tie-break selects 1; on
`d6b` (the only eligible reviewer has score −3) the code selects nobody
because the fold's best score starts at 0, while the spec selects the
eligible maximizer 1. -/
theorem C6_not_first_maximizer :
    (findBest d6a geCmp (fun _ _ => false) 0 (adjAt d6a 0) (none, 0)).1 = some 2 ∧
    specFirstPreferred d6a (fun _ _ => false) 0 (adjAt d6a 0) = some 1 ∧
    (findBest d6a geCmp (fun _ _ => false) 0 (adjAt d6a 0) (none, 0)).1 ≠
      specFirstPreferred d6a (fun _ _ => false) 0 (adjAt d6a 0) ∧
    (findBest d6b geCmp (fun _ _ => false) 0 (adjAt d6b 0) (none, 0)).1 = none ∧
    specFirstPreferred d6b (fun _ _ => false) 0 (adjAt d6b 0) = some 1 := by
  decide

/-- C6 amended: with the repository's greater-or-equal policy, the
relation a free proposer proposes on is, among its outgoing relations
whose has-proposed flag is false and whose reverse relation exists, the
one maximizing the preference score **among those scoring at least the
fold's initial best score 0**, with ties broken in favor of the **last**
such relation encountered in iteration order; if every eligible relation
scores below 0, no proposal is made. -/
theorem C6_selection_characterized (d : SMGraph) (prop : ℕ → ℕ → Bool) (m : ℕ)
    (l : List ℕ) :
    ((findBest d geCmp prop m l (none, 0)).1 = none ∧
       ∀ v ∈ l, prop m v = false → m ∈ adjAt d v → d.pref m v < 0)
    ∨ ∃ w l1 l2, (findBest d geCmp prop m l (none, 0)).1 = some w ∧
        l = l1 ++ w :: l2 ∧ prop m w = false ∧ m ∈ adjAt d w ∧
        (0 : ℤ) ≤ d.pref m w ∧
        (∀ v ∈ l, prop m v = false → m ∈ adjAt d v → d.pref m v ≤ d.pref m w) ∧
        (∀ v ∈ l2, prop m v = false → m ∈ adjAt d v → d.pref m v < d.pref m w) := by
  rcases findBest_ge_char d prop m l (none, 0) with ⟨heq, hbound⟩ |
    ⟨w, l1, l2, h1, _h2, h3, h4, h5, h6, h7, h8⟩
  · exact Or.inl ⟨by rw [heq], hbound⟩
  · exact Or.inr ⟨w, l1, l2, h1, h3, h4, h5, h6, h7, h8⟩

/-! ## Claim C8 -/

/-- A symmetric double write keeps a pointwise-symmetric map symmetric. -/
theorem pairUpd_symm {α : Type} (f : ℕ → ℕ → α) (a b : ℕ) (c : α)
    (hf : ∀ u v, f u v = f v u) (u v : ℕ) :
    pairUpd f a b c u v = pairUpd f a b c v u := by
  simp only [pairUpd, upd2]
  by_cases h1 : u = a <;> by_cases h2 : u = b <;> by_cases h3 : v = a <;>
    by_cases h4 : v = b <;> simp [h1, h2, h3, h4, hf u v] <;>
    first
    | rfl
    | exact hf _ _

theorem esym_mstep {d : SMGraph} {cmp : ℤ → ℤ → Bool} {colors : ℕ → Bool}
    {s s' : MState} (h : mstep d cmp colors s = some s') (hs : Esym s) : Esym s' := by
  rcases mstep_cases h with ⟨j, _, ⟨_, rfl⟩ | ⟨w0, _, ⟨_, rfl⟩ | ⟨_, ⟨_, rfl⟩ |
    ⟨q0, _, ⟨_, rfl⟩ | ⟨_, rfl⟩⟩⟩⟩⟩
  · exact hs
  · exact pairUpd_symm s.eng j w0 true hs
  · exact hs
  · exact pairUpd_symm _ w0 q0 false (pairUpd_symm s.eng j w0 true hs)
  · exact hs

theorem esym_reach (d : SMGraph) (cmp : ℤ → ℤ → Bool) (colors : ℕ → Bool) :
    ∀ (k : ℕ) (s : MState), Esym s → Esym (reach d cmp colors k s) := by
  intro k
  induction k with
  | zero => intro s hs; exact hs
  | succ k ih =>
      intro s hs
      unfold reach
      cases hm : mstep d cmp colors s with
      | none => exact hs
      | some s' => exact ih s' (esym_mstep hm hs)

theorem esym_loopFuel (d : SMGraph) (cmp : ℤ → ℤ → Bool) (colors : ℕ → Bool) :
    ∀ (f : ℕ) (s t : MState), Esym s → loopFuel d cmp colors f s = some t → Esym t := by
  intro f
  induction f with
  | zero => intro s t _ h; cases h
  | succ f ih =>
      intro s t hs h
      unfold loopFuel at h
      cases hm : mstep d cmp colors s with
      | none => rw [hm] at h; exact (Option.some_injective _ h) ▸ hs
      | some s' => rw [hm] at h; exact ih s' t (esym_mstep hm hs) h

/-- C8: along every run of the matcher (state after any number `k` of
iterations of the main loop, starting from the cleared initial state),
and in the final state delivered by `stable_marriage`, whenever both
relations A→B and B→A exist, their engaged flags agree: every state
change writes the two directions together. -/
theorem C8_engaged_symmetric (D : FullData) (cmp : ℤ → ℤ → Bool)
    (colors : ℕ → Bool) (k : ℕ) (u v : ℕ)
    (hu : v ∈ adjAt D.graph u) (hv : u ∈ adjAt D.graph v) :
    (reach D.graph cmp colors k (initM D.graph)).eng u v
      = (reach D.graph cmp colors k (initM D.graph)).eng v u ∧
    (stable_marriage D cmp).eng u v = (stable_marriage D cmp).eng v u := by
  constructor
  · exact esym_reach D.graph cmp colors k (initM D.graph) (fun _ _ => rfl) u v
  · have h1 : (smRun D cmp).eng u v = (smRun D cmp).eng v u := by
      have hsm : smRun D cmp
          = (loopFuel D.graph cmp (bipColors D) (mfuel D.graph) (initM D.graph)).getD
            (initM D.graph) := rfl
      rw [hsm]
      cases hl : loopFuel D.graph cmp (bipColors D) (mfuel D.graph) (initM D.graph) with
      | none => rfl
      | some t =>
          simp only [Option.getD_some]
          exact esym_loopFuel D.graph cmp (bipColors D) (mfuel D.graph)
            (initM D.graph) t (fun _ _ => rfl) hl u v
    show (if v ∈ adjAt D.graph u then (smRun D cmp).eng u v else D.eng u v)
        = (if u ∈ adjAt D.graph v then (smRun D cmp).eng v u else D.eng v u)
    rw [if_pos hu, if_pos hv, h1]

/-- Witness for `C8_engaged_symmetric` on the test instance after three
iterations, at the edge pair (0, 3). -/
theorem C8_witness :
    (reach D2.graph geCmp (bipColors D2) 3 (initM D2.graph)).eng 0 3
      = (reach D2.graph geCmp (bipColors D2) 3 (initM D2.graph)).eng 3 0 ∧
    (stable_marriage D2 geCmp).eng 0 3 = (stable_marriage D2 geCmp).eng 3 0 :=
  C8_engaged_symmetric D2 geCmp (bipColors D2) 3 0 3 (by decide) (by decide)

/-! ## Claim C5 -/

theorem cntFalse_congr (p q : ℕ → Bool) (l : List ℕ) (h : ∀ v ∈ l, p v = q v) :
    cntFalse p l = cntFalse q l := by
  induction l with
  | nil => rfl
  | cons v vs ih =>
      unfold cntFalse
      rw [h v (List.mem_cons_self v vs), ih fun x hx => h x (List.mem_cons_of_mem v hx)]

theorem cntFalse_head (p : ℕ → Bool) (v : ℕ) (vs : List ℕ) :
    cntFalse p (v :: vs) = (if p v = true then 0 else 1) + cntFalse p vs := rfl

theorem cntFalse_le (p q : ℕ → Bool) (l : List ℕ)
    (h : ∀ v ∈ l, q v = false → p v = false) : cntFalse q l ≤ cntFalse p l := by
  induction l with
  | nil => exact le_rfl
  | cons v vs ih =>
      rw [cntFalse_head p, cntFalse_head q]
      have hrec := ih fun x hx => h x (List.mem_cons_of_mem v hx)
      have hv := h v (List.mem_cons_self v vs)
      by_cases hq : q v = true
      · have e1 : (if q v = true then (0:ℕ) else 1) = 0 := if_pos hq
        have e2 : (if p v = true then (0:ℕ) else 1) ≤ 1 := by split <;> omega
        omega
      · have hqf : q v = false := Bool.eq_false_iff.2 hq
        have e1 : (if q v = true then (0:ℕ) else 1) = 1 := if_neg hq
        have e2 : (if p v = true then (0:ℕ) else 1) = 1 := by rw [hv hqf]; simp
        omega

theorem cntFalse_lt (p q : ℕ → Bool) (l : List ℕ) (w : ℕ)
    (h : ∀ v ∈ l, q v = false → p v = false) (hw : w ∈ l) (hpw : p w = false)
    (hqw : q w = true) : cntFalse q l < cntFalse p l := by
  induction l with
  | nil => cases hw
  | cons v vs ih =>
      rw [cntFalse_head p, cntFalse_head q]
      have hle := cntFalse_le p q vs fun x hx => h x (List.mem_cons_of_mem v hx)
      rcases List.mem_cons.1 hw with rfl | hw'
      · have e1 : (if q w = true then (0:ℕ) else 1) = 0 := if_pos hqw
        have e2 : (if p w = true then (0:ℕ) else 1) = 1 := by rw [hpw]; simp
        omega
      · have hrec := ih (fun x hx => h x (List.mem_cons_of_mem v hx)) hw'
        have hv := h v (List.mem_cons_self v vs)
        by_cases hq : q v = true
        · have e1 : (if q v = true then (0:ℕ) else 1) = 0 := if_pos hq
          have e2 : (if p v = true then (0:ℕ) else 1) ≤ 1 := by split <;> omega
          omega
        · have hqf : q v = false := Bool.eq_false_iff.2 hq
          have e1 : (if q v = true then (0:ℕ) else 1) = 1 := if_neg hq
          have e2 : (if p v = true then (0:ℕ) else 1) = 1 := by rw [hv hqf]; simp
          omega

theorem sumUnder_congr (f g : ℕ → ℕ) (n : ℕ) (h : ∀ u < n, f u = g u) :
    sumUnder f n = sumUnder g n := by
  induction n with
  | zero => rfl
  | succ n ih =>
      unfold sumUnder
      rw [h n (Nat.lt_succ_self n), ih fun u hu => h u (Nat.lt_succ_of_lt hu)]

theorem sumUnder_le (f g : ℕ → ℕ) (n : ℕ) (h : ∀ u < n, f u ≤ g u) :
    sumUnder f n ≤ sumUnder g n := by
  induction n with
  | zero => exact le_rfl
  | succ n ih =>
      unfold sumUnder
      have h1 := h n (Nat.lt_succ_self n)
      have h2 := ih fun u hu => h u (Nat.lt_succ_of_lt hu)
      omega

theorem sumUnder_lt (f g : ℕ → ℕ) (n j : ℕ) (hj : j < n)
    (hle : ∀ u < n, f u ≤ g u) (hlt : f j < g j) :
    sumUnder f n < sumUnder g n := by
  induction n with
  | zero => cases hj
  | succ n ih =>
      unfold sumUnder
      rcases Nat.lt_succ_iff_lt_or_eq.1 hj with hj' | rfl
      · have h1 := ih hj' fun u hu => hle u (Nat.lt_succ_of_lt hu)
        have h2 := hle n (Nat.lt_succ_self n)
        omega
      · have h2 := sumUnder_le f g j fun u hu => hle u (Nat.lt_succ_of_lt hu)
        omega

theorem sumUnder_le_succ (f g : ℕ → ℕ) (n a : ℕ)
    (h : ∀ u < n, u ≠ a → f u ≤ g u) (ha : f a ≤ g a + 1) :
    sumUnder f n ≤ sumUnder g n + 1 := by
  induction n with
  | zero => exact Nat.le_succ_of_le (Nat.le_refl 0)
  | succ n ih =>
      unfold sumUnder
      by_cases hn : n = a
      · subst hn
        have h2 := sumUnder_le f g n fun u hu => h u (Nat.lt_succ_of_lt hu)
            (Nat.ne_of_lt hu)
        omega
      · have h1 := h n (Nat.lt_succ_self n) hn
        have h2 := ih fun u hu hua => h u (Nat.lt_succ_of_lt hu) hua
        omega

theorem cntFalse_const_false (l : List ℕ) : cntFalse (fun _ => false) l = l.length := by
  induction l with
  | nil => rfl
  | cons v vs ih => unfold cntFalse; rw [ih]; simp [List.length_cons]; omega

theorem sumUnder_one (n : ℕ) : sumUnder (fun _ => 1) n = n := by
  induction n with
  | zero => rfl
  | succ n ih => unfold sumUnder; omega

/-- Setting one unset has-proposed flag on an existing edge strictly
decreases the count of unset flags. -/
theorem unprop_lt (d : SMGraph) (s s' : MState) (j w0 : ℕ) (hj : j < d.n)
    (hw : w0 ∈ adjAt d j) (hp : s.prop j w0 = false)
    (hs : ∀ u v, s'.prop u v = upd2 s.prop j w0 true u v) :
    unprop d s' < unprop d s := by
  have key : ∀ u v, s'.prop u v = false → s.prop u v = false := by
    intro u v hq
    rw [hs u v, upd2] at hq
    by_cases hc : u = j ∧ v = w0
    · rw [if_pos hc] at hq; cases hq
    · rwa [if_neg hc] at hq
  apply sumUnder_lt _ _ d.n j hj
  · intro u _
    exact cntFalse_le (s.prop u) (s'.prop u) (adjAt d u) fun v _ => key u v
  · apply cntFalse_lt (s.prop j) (s'.prop j) (adjAt d j) w0 (fun v _ => key j v) hw hp
    rw [hs j w0, upd2]
    simp

theorem freeTerm_le (a b : Bool) (h : a = true → b = true) :
    (if a = true then (1:ℕ) else 0) ≤ if b = true then 1 else 0 := by
  cases ha : a with
  | false => simp
  | true => rw [h ha]

theorem freeCnt_le (d : SMGraph) (s s' : MState)
    (h : ∀ u, s'.free u = true → s.free u = true) : freeCnt d s' ≤ freeCnt d s := by
  unfold freeCnt
  exact sumUnder_le _ _ d.n fun u _ => freeTerm_le (s'.free u) (s.free u) (h u)

theorem freeCnt_lt (d : SMGraph) (s s' : MState) (j : ℕ) (hj : j < d.n)
    (h : ∀ u, s'.free u = true → s.free u = true)
    (hjt : s.free j = true) (hjf : s'.free j = false) :
    freeCnt d s' < freeCnt d s := by
  unfold freeCnt
  apply sumUnder_lt _ _ d.n j hj
  · exact fun u _ => freeTerm_le (s'.free u) (s.free u) (h u)
  · rw [hjt, hjf]
    simp

theorem freeCnt_le_succ (d : SMGraph) (s s' : MState) (q0 : ℕ)
    (h : ∀ u, u ≠ q0 → s'.free u = true → s.free u = true) :
    freeCnt d s' ≤ freeCnt d s + 1 := by
  unfold freeCnt
  apply sumUnder_le_succ _ _ d.n q0
  · exact fun u _ hu => freeTerm_le (s'.free u) (s.free u) (h u hu)
  · have e1 : (if s'.free q0 = true then (1:ℕ) else 0) ≤ 1 := by split <;> omega
    have e2 : (0:ℕ) ≤ if s.free q0 = true then 1 else 0 := Nat.zero_le _
    omega

/-- Facts about a successful proposal selection. -/
theorem findBest_some_facts {d : SMGraph} {cmp : ℤ → ℤ → Bool}
    {prop : ℕ → ℕ → Bool} {m w0 : ℕ} {l : List ℕ}
    (h : (findBest d cmp prop m l (none, 0)).1 = some w0) :
    w0 ∈ l ∧ prop m w0 = false ∧ m ∈ adjAt d w0 ∧
    (findBest d cmp prop m l (none, 0)).2 = d.pref m w0 := by
  rcases findBest_cases d cmp prop m l (none, 0) with heq | ⟨w, h1, h2, h3, h4, h5⟩
  · rw [heq] at h; cases h
  · rw [h1] at h
    obtain rfl : w = w0 := Option.some_injective _ h
    exact ⟨h2, h3, h4, h5⟩

/-- Every non-exit iteration strictly decreases the loop measure. -/
theorem mstep_mu_lt {d : SMGraph} {cmp : ℤ → ℤ → Bool} {colors : ℕ → Bool}
    {s s' : MState} (h : mstep d cmp colors s = some s') : mu d s' < mu d s := by
  rcases mstep_cases h with ⟨j, hscan, hbr⟩
  obtain ⟨hj, _, hfree⟩ := mscan_some hscan
  rcases hbr with ⟨_, rfl⟩ | ⟨w0, hfb, hbr2⟩
  · have h1 : unprop d (exhaustState s j) = unprop d s := rfl
    have h2 : freeCnt d (exhaustState s j) < freeCnt d s := by
      apply freeCnt_lt d s _ j hj _ hfree
      · show upd s.free j false j = false
        simp [upd]
      · intro u hu
        show s.free u = true
        by_cases hc : u = j
        · exfalso
          rw [show (exhaustState s j).free u = upd s.free j false u from rfl,
            upd, if_pos hc] at hu
          cases hu
        · rwa [show (exhaustState s j).free u = upd s.free j false u from rfl,
            upd, if_neg hc] at hu
    unfold mu
    omega
  · obtain ⟨hw0mem, hw0p, _, _⟩ := findBest_some_facts hfb
    have hup : ∀ t : MState, (∀ u v, t.prop u v = upd2 s.prop j w0 true u v) →
        unprop d t < unprop d s := fun t ht => unprop_lt d s t j w0 hj hw0mem hw0p ht
    rcases hbr2 with ⟨_, rfl⟩ | ⟨_, hbr3⟩
    · have h1 : unprop d (engageState s j w0) < unprop d s := hup _ fun _ _ => rfl
      have h2 : freeCnt d (engageState s j w0) ≤ freeCnt d s := by
        apply freeCnt_le
        intro u hu
        show s.free u = true
        rw [show (engageState s j w0).free u = upd (upd s.free w0 false) j false u
          from rfl, upd, upd] at hu
        by_cases hc1 : u = j
        · rw [if_pos hc1] at hu; cases hu
        · rw [if_neg hc1] at hu
          by_cases hc2 : u = w0
          · rw [if_pos hc2] at hu; cases hu
          · rwa [if_neg hc2] at hu
      unfold mu
      omega
    · rcases hbr3 with ⟨_, rfl⟩ | ⟨q0, _, ⟨_, rfl⟩ | ⟨_, rfl⟩⟩
      · have h1 : unprop d (rejectState s j w0) < unprop d s := hup _ fun _ _ => rfl
        have h2 : freeCnt d (rejectState s j w0) = freeCnt d s := rfl
        unfold mu
        omega
      · have h1 : unprop d (displaceState s j w0 q0) < unprop d s := hup _ fun _ _ => rfl
        have h2 : freeCnt d (displaceState s j w0 q0) ≤ freeCnt d s + 1 := by
          apply freeCnt_le_succ d s _ q0
          intro u hq hu
          show s.free u = true
          rw [show (displaceState s j w0 q0).free u
            = upd (upd (upd s.free w0 false) j false) q0 true u from rfl,
            upd, upd, upd, if_neg hq] at hu
          by_cases hc1 : u = j
          · rw [if_pos hc1] at hu; cases hu
          · rw [if_neg hc1] at hu
            by_cases hc2 : u = w0
            · rw [if_pos hc2] at hu; cases hu
            · rwa [if_neg hc2] at hu
        unfold mu
        omega
      · have h1 : unprop d (rejectState s j w0) < unprop d s := hup _ fun _ _ => rfl
        have h2 : freeCnt d (rejectState s j w0) = freeCnt d s := rfl
        unfold mu
        omega

/-- Flags set stay set across an iteration. -/
theorem mstep_prop_mono {d : SMGraph} {cmp : ℤ → ℤ → Bool} {colors : ℕ → Bool}
    {s s' : MState} (h : mstep d cmp colors s = some s') :
    ∀ u v, s.prop u v = true → s'.prop u v = true := by
  rcases mstep_cases h with ⟨j, _, ⟨_, rfl⟩ | ⟨w0, _, ⟨_, rfl⟩ | ⟨_, ⟨_, rfl⟩ |
    ⟨q0, _, ⟨_, rfl⟩ | ⟨_, rfl⟩⟩⟩⟩⟩ <;> intro u v hp
  · exact hp
  all_goals
    show upd2 s.prop j w0 true u v = true
    rw [upd2_eval]
    by_cases hc : u = j ∧ v = w0
    · rw [if_pos hc]
    · rw [if_neg hc]
      exact hp

/-- Enough fuel makes the loop exit normally. -/
theorem loopFuel_isSome (d : SMGraph) (cmp : ℤ → ℤ → Bool) (colors : ℕ → Bool) :
    ∀ (f : ℕ) (s : MState), mu d s < f →
      (loopFuel d cmp colors f s).isSome = true := by
  intro f
  induction f with
  | zero => intro s hs; cases hs
  | succ f ih =>
      intro s hs
      unfold loopFuel
      cases hm : mstep d cmp colors s with
      | none => rfl
      | some s' =>
          exact ih s' (Nat.lt_of_lt_of_le (mstep_mu_lt hm) (Nat.lt_succ_iff.1 hs))

theorem mu_init (d : SMGraph) : mu d (initM d) = 2 * edgeCount d + d.n := by
  unfold mu unprop freeCnt edgeCount
  rw [sumUnder_congr (fun u => cntFalse ((initM d).prop u) (adjAt d u))
    (fun u => (adjAt d u).length) d.n fun u _ => cntFalse_const_false (adjAt d u)]
  rw [sumUnder_congr (fun u => if (initM d).free u then 1 else 0) (fun _ => 1) d.n
    fun u _ => rfl]
  rw [sumUnder_one]

/-- C5: the main loop always terminates, within the explicit fuel
2·edgeCount + n + 1 from the initial state; each non-exit iteration
strictly decreases the measure 2·(unset has-proposed flags) + (free
vertices) — it either sets a has-proposed flag (engaging or not) or
permanently exhausts a free proposer — and has-proposed flags, once set,
are never cleared. -/
theorem C5_loop_terminates (d : SMGraph) (cmp : ℤ → ℤ → Bool) (colors : ℕ → Bool)
    (s s' : MState) :
    (loopFuel d cmp colors (mfuel d) (initM d)).isSome = true ∧
    (mstep d cmp colors s = some s' →
      mu d s' < mu d s ∧ ∀ u v, s.prop u v = true → s'.prop u v = true) := by
  constructor
  · apply loopFuel_isSome
    rw [mu_init]
    exact Nat.lt_succ_self _
  · intro h
    exact ⟨mstep_mu_lt h, mstep_prop_mono h⟩

/-- Witness for `C5_loop_terminates` on the one-vertex graph `d5w` with
an all-black coloring: the first iteration is an exhaustion. -/
theorem C5_witness :
    (loopFuel d5w geCmp (fun _ => true) (mfuel d5w) (initM d5w)).isSome = true ∧
    (mu d5w (exhaustState (initM d5w) 0) < mu d5w (initM d5w) ∧
      ((initM d5w).prop 0 0 = true → (exhaustState (initM d5w) 0).prop 0 0 = true)) := by
  have h := C5_loop_terminates d5w geCmp (fun _ => true) (initM d5w)
    (exhaustState (initM d5w) 0)
  have h2 := h.2 rfl
  exact ⟨h.1, h2.1, h2.2 0 0⟩

/-! ## The run invariant (towards claim C1) -/

theorem white_of_black_adj {d : SMGraph} {colors : ℕ → Bool} {j w0 : ℕ}
    (hP : Proper d colors) (hcol : colors j = true) (hmem : w0 ∈ adjAt d j) :
    colors w0 = false := by
  have h := (hP j w0 hmem).2.2
  rw [hcol] at h
  exact Bool.eq_false_iff.2 fun ht => h ht.symm

theorem black_of_white_adj {d : SMGraph} {colors : ℕ → Bool} {w q : ℕ}
    (hP : Proper d colors) (hcw : colors w = false) (hmem : q ∈ adjAt d w) :
    colors q = true := by
  have h := (hP w q hmem).2.2
  rw [hcw] at h
  cases hq : colors q with
  | true => rfl
  | false => exact absurd hq.symm h

theorem not_orAnd_left {a b c d : Prop} (h1 : ¬a) (h2 : ¬c) :
    ¬((a ∧ b) ∨ (c ∧ d)) :=
  fun hh => hh.elim (fun x => h1 x.1) (fun x => h2 x.1)

theorem not_orAnd_right {a b c d : Prop} (h1 : ¬b) (h2 : ¬d) :
    ¬((a ∧ b) ∨ (c ∧ d)) :=
  fun hh => hh.elim (fun x => h1 x.2) (fun x => h2 x.2)

theorem not_swap2 {a b c d : Prop} (h : ¬((a ∧ b) ∨ (c ∧ d))) :
    ¬((d ∧ c) ∨ (b ∧ a)) :=
  fun hh => hh.elim (fun x => h (Or.inr ⟨x.2, x.1⟩)) (fun x => h (Or.inl ⟨x.2, x.1⟩))

theorem inv_init (d : SMGraph) (colors : ℕ → Bool) : Inv d colors (initM d) := by
  constructor
  · intro u v h; exact Bool.noConfusion h
  · intro u v h; exact Bool.noConfusion h
  · intro u v w h _; exact Bool.noConfusion h
  · intro m w _ h; exact Bool.noConfusion h
  · intro m w _ _ _ hp _; exact Bool.noConfusion hp
  · intro m r _ h; exact Bool.noConfusion h
  · intro w _ hf; exact Bool.noConfusion hf

theorem inv_exhaust (d : SMGraph) (colors : ℕ → Bool) (s : MState) (j : ℕ)
    (hcol : colors j = true) (hI : Inv d colors s) :
    Inv d colors (exhaustState s j) := by
  constructor
  · exact hI.symm
  · intro u v h
    obtain ⟨h1, h2⟩ := hI.notFree u v h
    refine ⟨?_, ?_⟩ <;> rw [exhaust_free_eval] <;> split
    · rfl
    · exact h1
    · rfl
    · exact h2
  · exact hI.uniq
  · exact hI.engProp
  · exact hI.busy
  · exact hI.opt
  · intro w hw hf
    by_cases hj : w = j
    · subst hj
      rw [hcol] at hw
      cases hw
    · rw [exhaust_free_eval, if_neg hj] at hf
      exact hI.whiteBusy w hw hf

theorem inv_reject (d : SMGraph) (colors : ℕ → Bool) (s : MState) (j w0 q0 : ℕ)
    (hcol : colors j = true) (hfree : s.free j = true)
    (hq : s.eng w0 q0 = true)
    (hnlt : ¬ d.pref w0 q0 < d.pref w0 j)
    (hI : Inv d colors s) : Inv d colors (rejectState s j w0) := by
  have hjno : ∀ y, s.eng j y = false := by
    intro y
    cases hxy : s.eng j y with
    | false => rfl
    | true =>
        have hh := (hI.notFree j y hxy).1
        rw [hfree] at hh
        cases hh
  constructor
  · exact hI.symm
  · exact hI.notFree
  · exact hI.uniq
  · intro m w hc he
    rw [reject_prop_eval]
    split
    · rfl
    · exact hI.engProp m w hc he
  · intro m w hc hw hm hp he
    rw [reject_prop_eval] at hp
    by_cases hmw : m = j ∧ w = w0
    · obtain ⟨rfl, rfl⟩ := hmw
      exact ⟨q0, hq, le_of_not_lt hnlt⟩
    · rw [if_neg hmw] at hp
      exact hI.busy m w hc hw hm hp he
  · intro m r hc he w hw hm hp
    by_cases hmj : m = j
    · rw [hmj] at he
      have he' : s.eng j r = true := he
      rw [hjno r] at he'
      cases he'
    · rw [reject_prop_eval, if_neg (fun hh => hmj hh.1)] at hp
      exact hI.opt m r hc he w hw hm hp
  · exact hI.whiteBusy

theorem inv_reject_nopartner (d : SMGraph) (colors : ℕ → Bool) (s : MState)
    (j w0 : ℕ)
    (hP : Proper d colors)
    (hcol : colors j = true) (hmem : w0 ∈ adjAt d j)
    (hfw : s.free w0 = false)
    (hfp : (adjAt d w0).find? (fun v => s.eng w0 v) = none)
    (hI : Inv d colors s) : Inv d colors (rejectState s j w0) := by
  exfalso
  have hcw : colors w0 = false := white_of_black_adj hP hcol hmem
  obtain ⟨v, hv, he⟩ := hI.whiteBusy w0 hcw hfw
  exact (List.find?_eq_none.1 hfp v hv) he

theorem inv_engage (d : SMGraph) (cmp : ℤ → ℤ → Bool) (colors : ℕ → Bool)
    (s : MState) (j w0 : ℕ)
    (hP : Proper d colors)
    (hle : ∀ a b : ℤ, cmp a b = true → b ≤ a)
    (hgt : ∀ a b : ℤ, b < a → cmp a b = true)
    (hcol : colors j = true) (hfree : s.free j = true)
    (hfb : (findBest d cmp s.prop j (adjAt d j) (none, 0)).1 = some w0)
    (hfw : s.free w0 = true)
    (hI : Inv d colors s) : Inv d colors (engageState s j w0) := by
  obtain ⟨hmem, hpjw, hrev, hfb2⟩ := findBest_some_facts hfb
  have hcw : colors w0 = false := white_of_black_adj hP hcol hmem
  have hne : j ≠ w0 := fun hh => by rw [hh, hcw] at hcol; cases hcol
  have hjno : ∀ y, s.eng j y = false := by
    intro y
    cases hxy : s.eng j y with
    | false => rfl
    | true =>
        have hh := (hI.notFree j y hxy).1
        rw [hfree] at hh
        cases hh
  have hwno : ∀ y, s.eng w0 y = false := by
    intro y
    cases hxy : s.eng w0 y with
    | false => rfl
    | true =>
        have hh := (hI.notFree w0 y hxy).1
        rw [hfw] at hh
        cases hh
  have hcharj : ∀ x, (engageState s j w0).eng j x = true → x = w0 := by
    intro x hx
    rw [engage_eng_eval] at hx
    by_cases hc : (j = w0 ∧ x = j) ∨ (j = j ∧ x = w0)
    · rcases hc with ⟨hh, _⟩ | ⟨_, hh⟩
      · exact absurd hh hne
      · exact hh
    · rw [if_neg hc, hjno x] at hx
      cases hx
  have hcharw : ∀ x, (engageState s j w0).eng w0 x = true → x = j := by
    intro x hx
    rw [engage_eng_eval] at hx
    by_cases hc : (w0 = w0 ∧ x = j) ∨ (w0 = j ∧ x = w0)
    · rcases hc with ⟨_, hh⟩ | ⟨hh, _⟩
      · exact hh
      · exact absurd hh.symm hne
    · rw [if_neg hc, hwno x] at hx
      cases hx
  constructor
  · intro u v huv
    rw [engage_eng_eval] at huv
    by_cases hc : (u = w0 ∧ v = j) ∨ (u = j ∧ v = w0)
    · rcases hc with ⟨rfl, rfl⟩ | ⟨rfl, rfl⟩
      · exact ⟨hrev, hmem, by rw [engage_eng_eval, if_pos (Or.inr ⟨rfl, rfl⟩)]⟩
      · exact ⟨hmem, hrev, by rw [engage_eng_eval, if_pos (Or.inl ⟨rfl, rfl⟩)]⟩
    · rw [if_neg hc] at huv
      obtain ⟨m1, m2, hsym⟩ := hI.symm u v huv
      refine ⟨m1, m2, ?_⟩
      rw [engage_eng_eval, if_neg (not_swap2 hc)]
      exact hsym
  · intro u v huv
    rw [engage_eng_eval] at huv
    constructor
    · rw [engage_free_eval]
      by_cases h1 : u = j
      · rw [if_pos h1]
      · rw [if_neg h1]
        by_cases h2 : u = w0
        · rw [if_pos h2]
        · rw [if_neg h2]
          have huv' : s.eng u v = true := by
            rw [if_neg (not_orAnd_left h2 h1)] at huv
            exact huv
          exact (hI.notFree u v huv').1
    · rw [engage_free_eval]
      by_cases h1 : v = j
      · rw [if_pos h1]
      · rw [if_neg h1]
        by_cases h2 : v = w0
        · rw [if_pos h2]
        · rw [if_neg h2]
          have huv' : s.eng u v = true := by
            rw [if_neg (not_orAnd_right h1 h2)] at huv
            exact huv
          exact (hI.notFree u v huv').2
  · intro u v w h1 h2
    by_cases hu1 : u = j
    · rw [hcharj v (hu1 ▸ h1), hcharj w (hu1 ▸ h2)]
    · by_cases hu2 : u = w0
      · rw [hcharw v (hu2 ▸ h1), hcharw w (hu2 ▸ h2)]
      · have h1' : s.eng u v = true := by
          rw [engage_eng_eval, if_neg (not_orAnd_left hu2 hu1)] at h1
          exact h1
        have h2' : s.eng u w = true := by
          rw [engage_eng_eval, if_neg (not_orAnd_left hu2 hu1)] at h2
          exact h2
        exact hI.uniq u v w h1' h2'
  · intro m w hc he
    rw [engage_prop_eval]
    by_cases hmw : m = j ∧ w = w0
    · rw [if_pos hmw]
    · rw [if_neg hmw]
      rw [engage_eng_eval] at he
      by_cases hnew : (m = w0 ∧ w = j) ∨ (m = j ∧ w = w0)
      · rcases hnew with ⟨rfl, _⟩ | hmw2
        · rw [hcw] at hc
          cases hc
        · exact absurd hmw2 hmw
      · rw [if_neg hnew] at he
        exact hI.engProp m w hc he
  · intro m w hc hw hm hp he
    have hcww : colors w = false := white_of_black_adj hP hc hw
    rw [engage_prop_eval] at hp
    by_cases hmw : m = j ∧ w = w0
    · obtain ⟨rfl, rfl⟩ := hmw
      rw [engage_eng_eval, if_pos (Or.inr ⟨rfl, rfl⟩)] at he
      cases he
    · rw [if_neg hmw] at hp
      have hmnw : m ≠ w0 := fun hh => by rw [hh, hcw] at hc; cases hc
      have hwnj : w ≠ j := fun hh => by rw [hh, hcol] at hcww; cases hcww
      have he' : s.eng m w = false := by
        rw [engage_eng_eval, if_neg (fun hh => hh.elim (fun x => hmnw x.1) hmw)] at he
        exact he
      by_cases hww : w = w0
      · exfalso
        obtain ⟨q, hq, _⟩ := hI.busy m w hc hw hm hp he'
        rw [hww, hwno q] at hq
        cases hq
      · obtain ⟨q, hq, hle2⟩ := hI.busy m w hc hw hm hp he'
        refine ⟨q, ?_, hle2⟩
        rw [engage_eng_eval, if_neg (not_orAnd_left hww hwnj)]
        exact hq
  · intro m r hc he w hw hm hp
    rw [engage_prop_eval] at hp
    by_cases hmj : m = j
    · have hr : r = w0 := hcharj r (hmj ▸ he)
      rw [hmj, hr]
      by_cases hww : w = w0
      · exfalso
        rw [if_pos ⟨hmj, hww⟩] at hp
        cases hp
      · have hp' : s.prop m w = false := by
          rw [if_neg (fun hh => hww hh.2)] at hp
          exact hp
        rw [hmj] at hp'
        have hmax := findBest_max d cmp s.prop j hle hgt (adjAt d j) (none, 0) w
          (hmj ▸ hw) hp' (hmj ▸ hm)
        rw [hfb2] at hmax
        exact hmax
    · by_cases hmw0 : m = w0
      · rw [hmw0, hcw] at hc
        cases hc
      · have he' : s.eng m r = true := by
          rw [engage_eng_eval, if_neg (not_orAnd_left hmw0 hmj)] at he
          exact he
        have hp' : s.prop m w = false := by
          rw [if_neg (fun hh => hmj hh.1)] at hp
          exact hp
        exact hI.opt m r hc he' w hw hm hp'
  · intro w hwcol hwf
    rw [engage_free_eval] at hwf
    by_cases h1 : w = j
    · rw [h1, hcol] at hwcol
      cases hwcol
    · rw [if_neg h1] at hwf
      by_cases h2 : w = w0
      · refine ⟨j, ?_, ?_⟩
        · rw [h2]
          exact hrev
        · rw [h2, engage_eng_eval, if_pos (Or.inl ⟨rfl, rfl⟩)]
      · rw [if_neg h2] at hwf
        obtain ⟨v, hv, hee⟩ := hI.whiteBusy w hwcol hwf
        refine ⟨v, hv, ?_⟩
        rw [engage_eng_eval, if_neg (not_orAnd_left h2 h1)]
        exact hee

theorem inv_displace (d : SMGraph) (cmp : ℤ → ℤ → Bool) (colors : ℕ → Bool)
    (s : MState) (j w0 q0 : ℕ)
    (hP : Proper d colors)
    (hle : ∀ a b : ℤ, cmp a b = true → b ≤ a)
    (hgt : ∀ a b : ℤ, b < a → cmp a b = true)
    (hcol : colors j = true) (hfree : s.free j = true)
    (hfb : (findBest d cmp s.prop j (adjAt d j) (none, 0)).1 = some w0)
    (hfp : (adjAt d w0).find? (fun v => s.eng w0 v) = some q0)
    (hlt : d.pref w0 q0 < d.pref w0 j)
    (hI : Inv d colors s) : Inv d colors (displaceState s j w0 q0) := by
  obtain ⟨hmem, hpjw, hrev, hfb2⟩ := findBest_some_facts hfb
  have hcw : colors w0 = false := white_of_black_adj hP hcol hmem
  have hjnw : j ≠ w0 := fun hh => by rw [hh, hcw] at hcol; cases hcol
  have hq : s.eng w0 q0 = true := List.find?_some hfp
  have hqmem : q0 ∈ adjAt d w0 := List.mem_of_find?_eq_some hfp
  have hcq : colors q0 = true := black_of_white_adj hP hcw hqmem
  have hqnw : q0 ≠ w0 := fun hh => by rw [hh, hcw] at hcq; cases hcq
  have hqfree : s.free q0 = false := (hI.notFree w0 q0 hq).2
  have hqnj : q0 ≠ j := fun hh => by rw [hh, hfree] at hqfree; cases hqfree
  obtain ⟨_, hq0mem, hq2⟩ := hI.symm w0 q0 hq
  have hjno : ∀ y, s.eng j y = false := by
    intro y
    cases hxy : s.eng j y with
    | false => rfl
    | true =>
        have hh := (hI.notFree j y hxy).1
        rw [hfree] at hh
        cases hh
  have huniqw : ∀ v, s.eng w0 v = true → v = q0 := fun v hv => hI.uniq w0 v q0 hv hq
  have huniqq : ∀ v, s.eng q0 v = true → v = w0 := fun v hv => hI.uniq q0 v w0 hv hq2
  have hknj : ¬((j = q0 ∧ w0 = w0) ∨ (j = w0 ∧ w0 = q0)) := by
    intro hh
    rcases hh with ⟨hh1, _⟩ | ⟨hh1, _⟩
    · exact hqnj hh1.symm
    · exact hjnw hh1
  have hknw : ¬((w0 = q0 ∧ j = w0) ∨ (w0 = w0 ∧ j = q0)) := by
    intro hh
    rcases hh with ⟨hh1, _⟩ | ⟨_, hh2⟩
    · exact hqnw hh1.symm
    · exact hqnj hh2.symm
  have hcharj : ∀ x, (displaceState s j w0 q0).eng j x = true → x = w0 := by
    intro x hx
    rw [displace_eng_eval] at hx
    by_cases hc1 : (j = q0 ∧ x = w0) ∨ (j = w0 ∧ x = q0)
    · rw [if_pos hc1] at hx
      cases hx
    · rw [if_neg hc1] at hx
      by_cases hc2 : (j = w0 ∧ x = j) ∨ (j = j ∧ x = w0)
      · rcases hc2 with ⟨hh, _⟩ | ⟨_, hh⟩
        · exact absurd hh hjnw
        · exact hh
      · rw [if_neg hc2, hjno x] at hx
        cases hx
  have hcharw : ∀ x, (displaceState s j w0 q0).eng w0 x = true → x = j := by
    intro x hx
    rw [displace_eng_eval] at hx
    by_cases hc1 : (w0 = q0 ∧ x = w0) ∨ (w0 = w0 ∧ x = q0)
    · rw [if_pos hc1] at hx
      cases hx
    · rw [if_neg hc1] at hx
      by_cases hc2 : (w0 = w0 ∧ x = j) ∨ (w0 = j ∧ x = w0)
      · rcases hc2 with ⟨_, hh⟩ | ⟨hh, _⟩
        · exact hh
        · exact absurd hh.symm hjnw
      · rw [if_neg hc2] at hx
        exact absurd (Or.inr ⟨rfl, huniqw x hx⟩) hc1
  have hcharq : ∀ x, (displaceState s j w0 q0).eng q0 x = true → False := by
    intro x hx
    rw [displace_eng_eval] at hx
    by_cases hc1 : (q0 = q0 ∧ x = w0) ∨ (q0 = w0 ∧ x = q0)
    · rw [if_pos hc1] at hx
      cases hx
    · rw [if_neg hc1] at hx
      by_cases hc2 : (q0 = w0 ∧ x = j) ∨ (q0 = j ∧ x = w0)
      · rcases hc2 with ⟨hh, _⟩ | ⟨hh, _⟩
        · exact hqnw hh
        · exact hqnj hh
      · rw [if_neg hc2] at hx
        exact hc1 (Or.inl ⟨rfl, huniqq x hx⟩)
  constructor
  · intro u v huv
    rw [displace_eng_eval] at huv
    by_cases hc1 : (u = q0 ∧ v = w0) ∨ (u = w0 ∧ v = q0)
    · rw [if_pos hc1] at huv
      cases huv
    · rw [if_neg hc1] at huv
      by_cases hc2 : (u = w0 ∧ v = j) ∨ (u = j ∧ v = w0)
      · rcases hc2 with ⟨rfl, rfl⟩ | ⟨rfl, rfl⟩
        · refine ⟨hrev, hmem, ?_⟩
          rw [displace_eng_eval, if_neg hknj, if_pos (Or.inr ⟨rfl, rfl⟩)]
        · refine ⟨hmem, hrev, ?_⟩
          rw [displace_eng_eval, if_neg hknw, if_pos (Or.inl ⟨rfl, rfl⟩)]
      · rw [if_neg hc2] at huv
        obtain ⟨m1, m2, hsym⟩ := hI.symm u v huv
        refine ⟨m1, m2, ?_⟩
        rw [displace_eng_eval, if_neg (not_swap2 hc1), if_neg (not_swap2 hc2)]
        exact hsym
  · intro u v huv
    have hunq : u ≠ q0 := by
      intro hh
      exact hcharq v (hh ▸ huv)
    have hvnq : v ≠ q0 := by
      intro hh
      rw [hh, displace_eng_eval] at huv
      by_cases hc1 : (u = q0 ∧ q0 = w0) ∨ (u = w0 ∧ q0 = q0)
      · rw [if_pos hc1] at huv
        cases huv
      · rw [if_neg hc1] at huv
        by_cases hc2 : (u = w0 ∧ q0 = j) ∨ (u = j ∧ q0 = w0)
        · rcases hc2 with ⟨_, hh2⟩ | ⟨_, hh2⟩
          · exact hqnj hh2
          · exact hqnw hh2
        · rw [if_neg hc2] at huv
          have hu2 := (hI.symm u q0 huv).2.2
          exact hc1 (Or.inr ⟨huniqq u hu2, rfl⟩)
    constructor
    · rw [displace_free_eval, if_neg hunq]
      by_cases h1 : u = j
      · rw [if_pos h1]
      · rw [if_neg h1]
        by_cases h2 : u = w0
        · rw [if_pos h2]
        · rw [if_neg h2]
          have huv' : s.eng u v = true := by
            rw [displace_eng_eval, if_neg (not_orAnd_left hunq h2),
              if_neg (not_orAnd_left h2 h1)] at huv
            exact huv
          exact (hI.notFree u v huv').1
    · rw [displace_free_eval, if_neg hvnq]
      by_cases h1 : v = j
      · rw [if_pos h1]
      · rw [if_neg h1]
        by_cases h2 : v = w0
        · rw [if_pos h2]
        · rw [if_neg h2]
          have huv' : s.eng u v = true := by
            rw [displace_eng_eval, if_neg (not_orAnd_right h2 hvnq),
              if_neg (not_orAnd_right h1 h2)] at huv
            exact huv
          exact (hI.notFree u v huv').2
  · intro u v w h1 h2
    by_cases hu1 : u = j
    · rw [hcharj v (hu1 ▸ h1), hcharj w (hu1 ▸ h2)]
    · by_cases hu2 : u = w0
      · rw [hcharw v (hu2 ▸ h1), hcharw w (hu2 ▸ h2)]
      · by_cases hu3 : u = q0
        · exact (hcharq v (hu3 ▸ h1)).elim
        · have h1' : s.eng u v = true := by
            rw [displace_eng_eval, if_neg (not_orAnd_left hu3 hu2),
              if_neg (not_orAnd_left hu2 hu1)] at h1
            exact h1
          have h2' : s.eng u w = true := by
            rw [displace_eng_eval, if_neg (not_orAnd_left hu3 hu2),
              if_neg (not_orAnd_left hu2 hu1)] at h2
            exact h2
          exact hI.uniq u v w h1' h2'
  · intro m w hc he
    rw [displace_prop_eval]
    by_cases hmw : m = j ∧ w = w0
    · rw [if_pos hmw]
    · rw [if_neg hmw]
      rw [displace_eng_eval] at he
      by_cases hc1 : (m = q0 ∧ w = w0) ∨ (m = w0 ∧ w = q0)
      · rw [if_pos hc1] at he
        cases he
      · rw [if_neg hc1] at he
        by_cases hc2 : (m = w0 ∧ w = j) ∨ (m = j ∧ w = w0)
        · rcases hc2 with ⟨rfl, _⟩ | hmw2
          · rw [hcw] at hc
            cases hc
          · exact absurd hmw2 hmw
        · rw [if_neg hc2] at he
          exact hI.engProp m w hc he
  · intro m w hc hw hm hp he
    have hcww : colors w = false := white_of_black_adj hP hc hw
    rw [displace_prop_eval] at hp
    by_cases hmw : m = j ∧ w = w0
    · obtain ⟨rfl, rfl⟩ := hmw
      rw [displace_eng_eval, if_neg hknj, if_pos (Or.inr ⟨rfl, rfl⟩)] at he
      cases he
    · rw [if_neg hmw] at hp
      have hmnw0 : m ≠ w0 := fun hh => by rw [hh, hcw] at hc; cases hc
      have hwnj : w ≠ j := fun hh => by rw [hh, hcol] at hcww; cases hcww
      have hwnq : w ≠ q0 := fun hh => by rw [hh, hcq] at hcww; cases hcww
      by_cases hww0 : w = w0
      · by_cases hmq : m = q0
        · refine ⟨j, ?_, ?_⟩
          · rw [hww0, displace_eng_eval, if_neg hknw, if_pos (Or.inl ⟨rfl, rfl⟩)]
          · rw [hmq, hww0]
            exact le_of_lt hlt
        · have hmj : m ≠ j := fun hh => hmw ⟨hh, hww0⟩
          have he' : s.eng m w = false := by
            rw [displace_eng_eval, if_neg (not_orAnd_left hmq hmnw0),
              if_neg (not_orAnd_left hmnw0 hmj)] at he
            exact he
          obtain ⟨q, hqe, hle2⟩ := hI.busy m w hc hw hm hp he'
          have hqq : q = q0 := by
            apply huniqw
            rw [← hww0]
            exact hqe
          refine ⟨j, ?_, ?_⟩
          · rw [hww0, displace_eng_eval, if_neg hknw, if_pos (Or.inl ⟨rfl, rfl⟩)]
          · rw [hww0]
            rw [hww0, hqq] at hle2
            exact le_trans hle2 (le_of_lt hlt)
      · have he' : s.eng m w = false := by
          rw [displace_eng_eval, if_neg (not_orAnd_right hww0 hwnq),
            if_neg (not_orAnd_right hwnj hww0)] at he
          exact he
        obtain ⟨q, hqe, hle2⟩ := hI.busy m w hc hw hm hp he'
        refine ⟨q, ?_, hle2⟩
        rw [displace_eng_eval, if_neg (not_orAnd_left hwnq hww0),
          if_neg (not_orAnd_left hww0 hwnj)]
        exact hqe
  · intro m r hc he w hw hm hp
    rw [displace_prop_eval] at hp
    by_cases hmj : m = j
    · have hr : r = w0 := hcharj r (hmj ▸ he)
      rw [hmj, hr]
      by_cases hww : w = w0
      · exfalso
        rw [if_pos ⟨hmj, hww⟩] at hp
        cases hp
      · have hp' : s.prop m w = false := by
          rw [if_neg (fun hh => hww hh.2)] at hp
          exact hp
        rw [hmj] at hp'
        have hmax := findBest_max d cmp s.prop j hle hgt (adjAt d j) (none, 0) w
          (hmj ▸ hw) hp' (hmj ▸ hm)
        rw [hfb2] at hmax
        exact hmax
    · by_cases hmw0 : m = w0
      · rw [hmw0, hcw] at hc
        cases hc
      · by_cases hmq : m = q0
        · exact (hcharq r (hmq ▸ he)).elim
        · have he' : s.eng m r = true := by
            rw [displace_eng_eval, if_neg (not_orAnd_left hmq hmw0),
              if_neg (not_orAnd_left hmw0 hmj)] at he
            exact he
          have hp' : s.prop m w = false := by
            rw [if_neg (fun hh => hmj hh.1)] at hp
            exact hp
          exact hI.opt m r hc he' w hw hm hp'
  · intro w hwcol hwf
    rw [displace_free_eval] at hwf
    by_cases h1 : w = q0
    · rw [h1, hcq] at hwcol
      cases hwcol
    · rw [if_neg h1] at hwf
      by_cases h2 : w = j
      · rw [h2, hcol] at hwcol
        cases hwcol
      · rw [if_neg h2] at hwf
        by_cases h3 : w = w0
        · refine ⟨j, ?_, ?_⟩
          · rw [h3]
            exact hrev
          · rw [h3, displace_eng_eval, if_neg hknw, if_pos (Or.inl ⟨rfl, rfl⟩)]
        · rw [if_neg h3] at hwf
          obtain ⟨v, hv, hee⟩ := hI.whiteBusy w hwcol hwf
          refine ⟨v, hv, ?_⟩
          rw [displace_eng_eval, if_neg (not_orAnd_left h1 h3),
            if_neg (not_orAnd_left h3 h2)]
          exact hee

/-- The invariant is preserved by every iteration of the main loop. -/
theorem inv_mstep {d : SMGraph} {cmp : ℤ → ℤ → Bool} {colors : ℕ → Bool}
    {s s' : MState}
    (hP : Proper d colors)
    (hle : ∀ a b : ℤ, cmp a b = true → b ≤ a)
    (hgt : ∀ a b : ℤ, b < a → cmp a b = true)
    (hI : Inv d colors s) (h : mstep d cmp colors s = some s') :
    Inv d colors s' := by
  rcases mstep_cases h with ⟨j, hscan, hbr⟩
  obtain ⟨_, hcol, hfree⟩ := mscan_some hscan
  rcases hbr with ⟨_, rfl⟩ | ⟨w0, hfb, hbr2⟩
  · exact inv_exhaust d colors s j hcol hI
  · rcases hbr2 with ⟨hfw, rfl⟩ | ⟨hfw, hbr3⟩
    · exact inv_engage d cmp colors s j w0 hP hle hgt hcol hfree hfb hfw hI
    · rcases hbr3 with ⟨hfp, rfl⟩ | ⟨q0, hfp, ⟨hlt, rfl⟩ | ⟨hnlt, rfl⟩⟩
      · exact inv_reject_nopartner d colors s j w0 hP hcol
          (findBest_some_facts hfb).1 hfw hfp hI
      · exact inv_displace d cmp colors s j w0 q0 hP hle hgt hcol hfree hfb
          hfp hlt hI
      · exact inv_reject d colors s j w0 q0 hcol hfree
          (List.find?_some hfp) hnlt hI

theorem inv_loopFuel {d : SMGraph} {cmp : ℤ → ℤ → Bool} {colors : ℕ → Bool}
    (hP : Proper d colors)
    (hle : ∀ a b : ℤ, cmp a b = true → b ≤ a)
    (hgt : ∀ a b : ℤ, b < a → cmp a b = true) :
    ∀ (f : ℕ) (s t : MState), Inv d colors s →
      loopFuel d cmp colors f s = some t → Inv d colors t := by
  intro f
  induction f with
  | zero => intro s t _ h; cases h
  | succ f ih =>
      intro s t hs h
      unfold loopFuel at h
      cases hm : mstep d cmp colors s with
      | none => rw [hm] at h; exact (Option.some_injective _ h) ▸ hs
      | some s' => rw [hm] at h; exact ih s' t (inv_mstep hP hle hgt hs hm) h

/-! ## Claim C1 -/

/-- C1: after `stable_marriage` returns (with any comparison policy that
accepts strict improvements and only accepts when the left score is at
least the right — both `>` and the repository's `>=` qualify — and with
the internally computed coloring a proper 2-coloring), the engagement
relation is stable over engaged pairs: for every engaged pair (p, r)
with p a (black) proposer and every other reviewer r' reachable from p
with an existing reverse relation, either p does not strictly prefer r'
over r, or r' holds a partner it does not score strictly below p. -/
theorem C1_stability (D : FullData) (cmp : ℤ → ℤ → Bool)
    (hle : ∀ a b : ℤ, cmp a b = true → b ≤ a)
    (hgt : ∀ a b : ℤ, b < a → cmp a b = true)
    (hP : Proper D.graph (bipColors D))
    (p r r' : ℕ)
    (hpb : bipColors D p = true)
    (hmem : r ∈ adjAt D.graph p)
    (heng : (stable_marriage D cmp).eng p r = true)
    (h1 : r' ∈ adjAt D.graph p) (h2 : p ∈ adjAt D.graph r')
    (h3 : D.pref p r < D.pref p r') :
    ∃ p', p' ∈ adjAt D.graph r' ∧ (stable_marriage D cmp).eng r' p' = true ∧
      ¬ D.pref r' p' < D.pref r' p := by
  have hterm := loopFuel_isSome D.graph cmp (bipColors D) (mfuel D.graph)
    (initM D.graph) (by rw [mu_init]; exact Nat.lt_succ_self _)
  obtain ⟨t, ht⟩ := Option.isSome_iff_exists.1 hterm
  have hF : smRun D cmp = t := by
    show (loopFuel D.graph cmp (bipColors D) (mfuel D.graph)
      (initM D.graph)).getD (initM D.graph) = t
    rw [ht]
    rfl
  have hInv : Inv D.graph (bipColors D) t :=
    inv_loopFuel hP hle hgt (mfuel D.graph) (initM D.graph) t
      (inv_init D.graph (bipColors D)) ht
  have hengF : t.eng p r = true := by
    have hh : (stable_marriage D cmp).eng p r = (smRun D cmp).eng p r := by
      show (if r ∈ adjAt D.graph p then (smRun D cmp).eng p r else D.eng p r) = _
      rw [if_pos hmem]
    rw [hh, hF] at heng
    exact heng
  have hprt : t.prop p r' = true := by
    cases hpr : t.prop p r' with
    | true => rfl
    | false =>
        exfalso
        have hh2 : D.pref p r' ≤ D.pref p r := hInv.opt p r hpb hengF r' h1 h2 hpr
        omega
  have hengr' : t.eng p r' = false := by
    cases her : t.eng p r' with
    | false => rfl
    | true =>
        exfalso
        have := hInv.uniq p r r' hengF her
        rw [this] at h3
        omega
  obtain ⟨q, hq, hle2⟩ := hInv.busy p r' hpb h1 h2 hprt hengr'
  have hqmem : q ∈ adjAt D.graph r' := (hInv.symm r' q hq).1
  refine ⟨q, hqmem, ?_, ?_⟩
  · show (if q ∈ adjAt D.graph r' then (smRun D cmp).eng r' q else D.eng r' q) = true
    rw [if_pos hqmem, hF]
    exact hq
  · have hh3 : D.pref r' p ≤ D.pref r' q := hle2
    omega

/-- Witness for `C1_stability` on the repository's 3×3 test instance
with the greater-or-equal policy: the engaged pair (4, 0) and the
reachable reviewer 2, whom proposer 4 strictly prefers (score 5 over 4),
so reviewer 2 must hold a partner it scores at least as high as 4. -/
theorem C1_witness :
    ∃ p', p' ∈ adjAt D2.graph 2 ∧ (stable_marriage D2 geCmp).eng 2 p' = true ∧
      ¬ D2.pref 2 p' < D2.pref 2 4 :=
  C1_stability D2 geCmp
    (fun a b h => of_decide_eq_true h)
    (fun a b h => decide_eq_true (le_of_lt h))
    (Proper_of_check D2.graph (bipColors D2) (by decide))
    4 0 2 (by decide) (by decide) (by decide) (by decide) (by decide) (by decide)

end StableMarriage
